import Mathlib

/-!
Verification development for the Bhagavad-Gita retrieval-augmented chat
server (`src/server.js`, `src/generateEmbeddings.js`).

Strings are modelled as `List Char` (sequences of Unicode scalar values);
JavaScript numbers used as indices are modelled as `Int`, with the
clamping behaviour of `String.prototype.substring` made explicit.
-/

/-- Model of `text.substring(a, b)` (JS): both indices are clamped to
`[0, text.length]` and swapped when `a > b`; the result is the slice
between the two clamped indices. -/
def substringJS (s : List Char) (a b : Int) : List Char :=
  let len : Int := s.length
  let a' := min (max a 0) len
  let b' := min (max b 0) len
  let lo := min a' b'
  let hi := max a' b'
  (s.take hi.toNat).drop lo.toNat

/-- Fuel-indexed small-step model of the loop in `chunkText`
(`server.js` lines 49-55 and `generateEmbeddings.js` lines 18-24):
`for (let i = 0; i < text.length; i += chunkSize)
   chunks.push(text.substring(i, i + chunkSize))`.
`none` means the given amount of fuel did not suffice, so
`∀ fuel, … = none` is divergence of the loop. -/
def chunkTextLoop : Nat → List Char → Int → Int → List (List Char) → Option (List (List Char))
  | 0, _, _, _, _ => none
  | fuel + 1, text, chunkSize, i, acc =>
    if i < (text.length : Int) then
      chunkTextLoop fuel text chunkSize (i + chunkSize) (acc ++ [substringJS text i (i + chunkSize)])
    else
      some acc

/-- Structural form of the `chunkText` loop body: for a positive chunk
size, `text.substring(i, i + chunkSize)` is `take chunkSize` of the
remaining text and the loop advances by `chunkSize`.  The first argument
is fuel bounding the recursion depth; `chunkText` instantiates it with
`text.length`, which suffices whenever the chunk size is positive
(see `chunkTextGo_congr`). -/
def chunkTextGo : Nat → List Char → Nat → List (List Char)
  | _, [], _ => []
  | 0, _ :: _, _ => []
  | fuel + 1, c :: rest, chunkSize =>
    ((c :: rest).take chunkSize) :: chunkTextGo fuel ((c :: rest).drop chunkSize) chunkSize

/-- `chunkText(text, chunkSize)` of `server.js`/`generateEmbeddings.js`
for a positive `chunkSize` (the default is 1500): the list of successive
`chunkSize`-character slices of `text`.  Agreement with the direct loop
model `chunkTextLoop` is proved in `chunkTextLoop_go`. -/
def chunkText (text : List Char) (chunkSize : Nat) : List (List Char) :=
  chunkTextGo text.length text chunkSize

/-! ### Text sanitizer (`sanitizeText`, `server.js` lines 63-69 and
`generateEmbeddings.js` lines 26-32)

The regex character class `[^\p{L}\p{N}\p{P}\p{Zs}\n\r\t]` refers to the
Unicode general-category tables, which are external to the source; the
class is therefore a parameter `keep : Char → Bool` of the model, and
the theorems assume only indisputable facts about it (the space U+0020
is in `\p{Zs}`, and `\n` is listed explicitly, so both are kept). -/

/-- Horizontal whitespace as matched by the regex class `[ \t]`. -/
def isHWS (c : Char) : Bool := c == ' ' || c == '\t'

/-- First `replace` of `sanitizeText`:
`.replace(/[^\p{L}\p{N}\p{P}\p{Zs}\n\r\t]/gu, ' ')` substitutes a space
for every character outside the kept class. -/
def replaceDisallowed (keep : Char → Bool) (text : List Char) : List Char :=
  text.map (fun c => if keep c then c else ' ')

/-- Second `replace` of `sanitizeText`, `.replace(/[ \t]+/g, ' ')`:
each maximal run of spaces and tabs becomes a single space.  The Bool
argument records whether the previous character was part of such a run
(in which case the single space for the run has already been emitted). -/
def collapseHWSAux : Bool → List Char → List Char
  | _, [] => []
  | inRun, c :: rest =>
    if isHWS c then
      (if inRun then [] else [' ']) ++ collapseHWSAux true rest
    else
      c :: collapseHWSAux false rest

/-- Entry point of the `[ \t]+` collapse (no run is in progress). -/
def collapseHWS (l : List Char) : List Char := collapseHWSAux false l

/-- Third `replace` of `sanitizeText`, `.replace(/\n{3,}/g, '\n\n')`:
each maximal run of three or more newlines becomes exactly two, which is
the same as keeping the first two newlines of every run and dropping the
rest.  The counter is the number of consecutive newlines seen
immediately before the current position. -/
def collapseNLAux : Nat → List Char → List Char
  | _, [] => []
  | cnt, c :: rest =>
    if c == '\n' then
      (if cnt < 2 then ['\n'] else []) ++ collapseNLAux (cnt + 1) rest
    else
      c :: collapseNLAux 0 rest

/-- Entry point of the `\n{3,}` collapse (no newline precedes). -/
def collapseNL (l : List Char) : List Char := collapseNLAux 0 l

/-- Unicode space separators (general category Zs), an enumerable set. -/
def isZsChar (c : Char) : Bool :=
  c == ' ' || c.val == 0xA0 || c.val == 0x1680 ||
  (0x2000 ≤ c.val && c.val ≤ 0x200A) || c.val == 0x202F || c.val == 0x205F ||
  c.val == 0x3000

/-- The character set removed at the ends by `String.prototype.trim`:
ECMAScript WhiteSpace (tab, vertical tab, form feed, NBSP, BOM and the
Zs category) together with the line terminators. -/
def isJSWhitespace (c : Char) : Bool :=
  c == '\t' || c.val == 0xB || c.val == 0xC || c == '\n' || c == '\r' ||
  c.val == 0x2028 || c.val == 0x2029 || c.val == 0xFEFF || isZsChar c

/-- Final `.trim()` of `sanitizeText`: drop JS whitespace from both ends. -/
def trimJS (l : List Char) : List Char :=
  ((l.dropWhile isJSWhitespace).reverse.dropWhile isJSWhitespace).reverse

/-- `sanitizeText` (`server.js` lines 63-69): replace disallowed
characters by spaces, collapse horizontal-whitespace runs, collapse
3-or-more newline runs to two, and trim. -/
def sanitizeText (keep : Char → Bool) (text : List Char) : List Char :=
  trimJS (collapseNL (collapseHWS (replaceDisallowed keep text)))

/-- Modelled from the spec: the variant of `sanitizeText` that claim C4
describes, in which characters outside the kept class are deleted
outright instead of being replaced by a space, before the same
whitespace normalization and trimming. -/
def sanitizeDeleting (keep : Char → Bool) (text : List Char) : List Char :=
  trimJS (collapseNL (collapseHWS (text.filter keep)))

/-- Concrete instance of the kept class used for evaluating the model on
examples.  It agrees with `[\p{L}\p{N}\p{P}\p{Zs}\n\r\t]` on every
character appearing in those examples: ASCII letters and digits are in
`\p{L}` and `\p{N}`, the space is in `\p{Zs}`, and U+0000 (a control
character) is outside all the listed categories. -/
def keepDemo (c : Char) : Bool :=
  c.isAlpha || c.isDigit || c == ' ' || c == '\n' || c == '\r' || c == '\t'

/-- Occurrence of `t` as a contiguous substring of `l`. -/
def hasSub (t l : List Char) : Prop := ∃ pre post, l = pre ++ t ++ post

/-- Three consecutive newlines, the pattern matched by `/\n{3,}/`. -/
def tripleNL : List Char := ['\n', '\n', '\n']

/-- The no-adjacent-horizontal-whitespace relation used to state that
`collapseHWS` leaves no `[ \t]` run of length two or more. -/
def noHWSPair (a b : Char) : Prop := isHWS a = false ∨ isHWS b = false

/-! ### Conversation turns and the combined retrieval query
(`server.js` lines 84-85, 212-213) -/

/-- Turn roles of the generative-AI chat history. -/
inductive Role where
  | user
  | model
deriving DecidableEq, Repr

/-- One element of a turn's `parts` array, `{ text: … }`. -/
structure ChatPart where
  text : String
deriving DecidableEq, Repr

/-- One history entry as pushed by the `/chat` handler
(lines 212-213): `{ role, parts: [{ text }] }`. -/
structure Turn where
  role : Role
  parts : List ChatPart
deriving DecidableEq, Repr

/-- JS evaluation of `h?.parts?.text ?? ''` (line 84): `h.parts` is an
array, and a JS array has no `text` property, so the access evaluates to
`undefined` and `?? ''` yields the empty string — for every turn,
whatever text its parts contain. -/
def histItemText (_h : Turn) : String := ""

/-- `history.slice(-4)`: the last four entries (all of them when the
history is shorter). -/
def sliceLast4 (history : List Turn) : List Turn :=
  history.drop (history.length - 4)

/-- `history.slice(-4).map(h => (h?.parts?.text ?? '')).filter(Boolean).join('\n')`
(line 84).  `filter(Boolean)` drops the falsy empty strings. -/
def recentHistoryText (history : List Turn) : String :=
  String.intercalate "\n"
    (((sliceLast4 history).map histItemText).filter (fun s => s ≠ ""))

/-- The combined query of line 85, the template literal
`` `${recentHistoryText} \n ${query}` ``. -/
def combinedQuery (history : List Turn) (query : String) : String :=
  recentHistoryText history ++ " \n " ++ query

/-! ### Semantic retriever (`retrieveRelevantChunksVector`,
`server.js` lines 79-104)

Scores are modelled as rationals and the cosine-similarity computation
(the `cosine-similarity` collaborator package, floating point) as an
opaque score function; the embedding service is an opaque fallible
collaborator `embed`, with `none` standing for a thrown error. -/

/-- One record of the corpus vector store: `{ text, embedding }`. -/
structure Chunk where
  text : String
  embedding : List ℚ
deriving DecidableEq, Repr

/-- Insert one scored chunk into a list sorted by non-increasing score,
before the first entry whose score is not larger — the earlier element
comes first among equal scores, which is the stable order produced by
`Array.prototype.sort` (stable per ES2019) with the comparator
`(a, b) => b.score - a.score`. -/
def insertDesc (x : String × ℚ) : List (String × ℚ) → List (String × ℚ)
  | [] => [x]
  | y :: ys => if y.2 ≤ x.2 then x :: y :: ys else y :: insertDesc x ys

/-- Stable sort by non-increasing score (model of
`scoredChunks.sort((a, b) => b.score - a.score)`, line 100). -/
def sortDesc : List (String × ℚ) → List (String × ℚ)
  | [] => []
  | x :: xs => insertDesc x (sortDesc xs)

/-- The scored-chunk list of lines 94-97: every stored chunk paired with
its similarity score against the query embedding. -/
def scoredOf (score : List ℚ → List ℚ → ℚ) (queryEmbedding : List ℚ)
    (store : List Chunk) : List (String × ℚ) :=
  store.map (fun chunk => (chunk.text, score queryEmbedding chunk.embedding))

/-- `retrieveRelevantChunksVector` (lines 79-104): empty store short
circuits to `[]` with no embedding call; otherwise embed the combined
query (a failure, `none`, propagates), score every chunk, sort by
descending score and return the texts of the first `topK`. -/
def retrieveRelevantChunksVector (score : List ℚ → List ℚ → ℚ)
    (embed : String → Option (List ℚ)) (store : List Chunk)
    (query : String) (history : List Turn) (topK : Nat) :
    Option (List String) :=
  if store.length == 0 then some []
  else
    match embed (combinedQuery history query) with
    | none => none
    | some queryEmbedding =>
      some (((sortDesc (scoredOf score queryEmbedding store)).take topK).map Prod.fst)

/-! ### The `/chat` endpoint (`app.post('/chat')`, `server.js`
lines 160-222)

The session cache is modelled as a total map from session id to turn
list, with the absent-key default `[]` folded in (the handler reads
`sessionCache.get(sessionId) || []`).  The generation collaborator `gen`
receives the assembled context block, the prompt and the prior history
(the fixed instruction template around them does not affect any claim);
`none` stands for a thrown error, `some t` for a reply whose extracted
text (`result?.response?.text?.() ?? ''`) is `t`. -/

/-- A JSON response body of the handler. -/
inductive Body where
  | response (s : String)
  | error (s : String)
deriving DecidableEq, Repr

/-- Truthiness test of `!sessionId || !prompt` for a JSON string field:
falsy when absent or the empty string. -/
def jsFalsy : Option String → Bool
  | none => true
  | some s => s == ""

/-- The fixed clarification substituted for a blank generation
(line 210). -/
def clarification : String :=
  "Could you share a bit more detail so I can offer clearer guidance?"

/-- Session-store write, `sessionCache.set(sessionId, chatHistory)`. -/
def sessionsSet (sessions : String → List Turn) (sid : String)
    (turns : List Turn) : String → List Turn :=
  fun k => if k = sid then turns else sessions k

/-- The context block passed to the generation call: the retrieved
chunks joined by the visible separator (line 172), taken as `[]` when
retrieval failed (in which case the handler has already answered 500 and
the generation call never happens). -/
def contextOf (score : List ℚ → List ℚ → ℚ) (embed : String → Option (List ℚ))
    (store : List Chunk) (prompt : String) (history : List Turn) : String :=
  String.intercalate "\n\n---\n\n"
    ((retrieveRelevantChunksVector score embed store prompt history 3).getD [])

/-- The `/chat` handler (lines 160-222): validate the two fields,
retrieve context for the prompt with topK 3, generate, substitute the
clarification for a blank reply, append the user and model turns, store
the new history and answer 200; a collaborator failure is caught and
answered 500 with the session store untouched. -/
def postChat (score : List ℚ → List ℚ → ℚ) (embed : String → Option (List ℚ))
    (gen : String → String → List Turn → Option String) (store : List Chunk)
    (sessions : String → List Turn) (sessionId prompt : Option String) :
    (Nat × Body) × (String → List Turn) :=
  if jsFalsy sessionId || jsFalsy prompt then
    ((400, Body.error "sessionId and prompt are required"), sessions)
  else
    let sid := sessionId.getD ""
    let p := prompt.getD ""
    let chatHistory := sessions sid
    match retrieveRelevantChunksVector score embed store p chatHistory 3 with
    | none => ((500, Body.error "An internal server error occurred."), sessions)
    | some contextChunks =>
      let context := String.intercalate "\n\n---\n\n" contextChunks
      match gen context p chatHistory with
      | none => ((500, Body.error "An internal server error occurred."), sessions)
      | some text =>
        let finalText := if 0 < (trimJS text.toList).length then text else clarification
        let newHistory := chatHistory ++
          [⟨Role.user, [⟨p⟩]⟩, ⟨Role.model, [⟨finalText⟩]⟩]
        ((200, Body.response finalText), sessionsSet sessions sid newHistory)

/-! ### Startup load path (`loadEmbeddings`, `server.js` lines 224-240)

File reading and JSON parsing are collaborators; their combined outcome
is an `Except`: `.error` for an unreadable file or unparseable JSON,
`.ok v` for a parsed JSON value.  JSON numbers are modelled as integers,
which covers every number the load checks inspect. -/

/-- A parsed JSON value. -/
inductive JSValue where
  | null
  | bool (b : Bool)
  | num (n : Int)
  | str (s : String)
  | arr (elems : List JSValue)
  | obj (fields : List (String × JSValue))

/-- JS truthiness of a parsed JSON value (`!pdfChunksWithEmbeddings`):
`null`, `false`, `0` and `''` are falsy; arrays and objects are always
truthy. -/
def jsTruthy : JSValue → Bool
  | .null => false
  | .bool b => b
  | .num n => n != 0
  | .str s => s ≠ ""
  | .arr _ => true
  | .obj _ => true

/-- The `length` property read by `pdfChunksWithEmbeddings.length`:
arrays and strings have their intrinsic length, a plain object has
whatever `length` field it carries, and any other value gives
`undefined` (`none`). -/
def lengthProp : JSValue → Option JSValue
  | .arr l => some (.num l.length)
  | .str s => some (.num s.length)
  | .obj fields => fields.lookup "length"
  | _ => none

/-- Strict equality test `x.length === 0`: true exactly when the
property is present and is the number 0 (`undefined === 0` is false). -/
def lengthIsZero (v : JSValue) : Bool :=
  match lengthProp v with
  | some (.num n) => n == 0
  | _ => false

/-- Outcome of the startup load: `exit1` models `process.exit(1)` (the
server never starts serving), `started v` models reaching the
`app.listen` call with `pdfChunksWithEmbeddings = v`. -/
inductive LoadOutcome where
  | exit1
  | started (v : JSValue)

/-- `loadEmbeddings` (lines 224-240): a read/parse failure or a parsed
value that is falsy or has `length === 0` throws, which the `catch`
turns into `process.exit(1)`; any other parsed value is accepted. -/
def loadEmbeddings (parsed : Except String JSValue) : LoadOutcome :=
  match parsed with
  | .error _ => .exit1
  | .ok v => if !jsTruthy v || lengthIsZero v then .exit1 else .started v

/-- Model of a JSON number for the well-formedness check below. -/
def isNumVal : JSValue → Bool
  | .num _ => true
  | _ => false

/-- Modelled from the spec (§6, "a serialized sequence of
`{text, embedding}` records"): a record is well formed when it is an
object with a string `text` field and an `embedding` field holding an
array of numbers. -/
def wellFormedRecord : JSValue → Bool
  | .obj fields =>
    (match fields.lookup "text" with
     | some (.str _) => true
     | _ => false) &&
    (match fields.lookup "embedding" with
     | some (.arr es) => es.all isNumVal
     | _ => false)
  | _ => false

/-- Modelled from the spec: a well-formed serialized store is an array
of well-formed records. -/
def wellFormedStore : JSValue → Bool
  | .arr recs => recs.all wellFormedRecord
  | _ => false

/-! ### Lemmas -/

theorem substringJS_take_drop (s : List Char) (i n : Int) (hi0 : 0 ≤ i) (hn0 : 0 ≤ n) :
    substringJS s i (i + n) = (s.drop i.toNat).take n.toNat := by
  unfold substringJS
  have hlen : (0 : Int) ≤ (s.length : Int) := Int.ofNat_nonneg _
  have hmax1 : max i 0 = i := max_eq_left hi0
  have hmax2 : max (i + n) 0 = i + n := max_eq_left (by omega)
  have hmm : min i (s.length : Int) ≤ min (i + n) (s.length : Int) := by
    apply min_le_min _ le_rfl
    omega
  simp only [hmax1, hmax2]
  rw [min_eq_left hmm, max_eq_right hmm]
  -- now the goal is about `(s.take (min (i+n) len).toNat).drop (min i len).toNat`
  rcases le_or_lt i (s.length : Int) with hle | hgt
  · have h1 : (min i (s.length : Int)).toNat = i.toNat := by
      rw [min_eq_left hle]
    rcases le_or_lt (i + n) (s.length : Int) with hle2 | hgt2
    · have h2 : (min (i + n) (s.length : Int)).toNat = i.toNat + n.toNat := by
        rw [min_eq_left hle2]; omega
      rw [h1, h2, List.drop_take]
      congr 1
      omega
    · have h2 : (min (i + n) (s.length : Int)).toNat = s.length := by
        rw [min_eq_right (le_of_lt hgt2)]; simp
      rw [h1, h2, List.drop_take]
      rw [List.take_of_length_le (by simp [List.length_drop])]
      rw [List.take_of_length_le (by rw [List.length_drop]; omega)]
  · have h1 : (min i (s.length : Int)).toNat = s.length := by
      rw [min_eq_right (le_of_lt hgt)]; simp
    have h2 : (min (i + n) (s.length : Int)).toNat = s.length := by
      rw [min_eq_right (by omega)]; simp
    rw [h1, h2]
    have hdrop : s.drop i.toNat = [] := by
      apply List.drop_eq_nil_of_le
      omega
    rw [hdrop, List.drop_eq_nil_of_le]
    · simp
    · simp [List.length_take]

theorem chunkTextGo_congr (cs : Nat) (hcs : 0 < cs) :
    ∀ f1 f2 (text : List Char), text.length ≤ f1 → text.length ≤ f2 →
      chunkTextGo f1 text cs = chunkTextGo f2 text cs := by
  intro f1
  induction f1 with
  | zero =>
    intro f2 text h1 _
    have : text = [] := List.eq_nil_of_length_eq_zero (by omega)
    subst this
    cases f2 <;> rfl
  | succ f1 ih =>
    intro f2 text h1 h2
    cases text with
    | nil => cases f2 <;> rfl
    | cons c rest =>
      cases f2 with
      | zero => simp at h2
      | succ f2 =>
        simp only [chunkTextGo]
        congr 1
        apply ih
        · rw [List.length_drop]
          simp only [List.length_cons] at h1 ⊢
          omega
        · rw [List.length_drop]
          simp only [List.length_cons] at h2 ⊢
          omega

theorem chunkText_nil (cs : Nat) : chunkText [] cs = [] := rfl

theorem chunkText_cons (cs : Nat) (hcs : 0 < cs) (text : List Char) (hne : text ≠ []) :
    chunkText text cs = text.take cs :: chunkText (text.drop cs) cs := by
  cases text with
  | nil => exact absurd rfl hne
  | cons c rest =>
    show chunkTextGo (rest.length + 1) (c :: rest) cs = _
    simp only [chunkTextGo]
    congr 1
    apply chunkTextGo_congr cs hcs
    · rw [List.length_drop]
      simp only [List.length_cons]
      omega
    · rfl

theorem chunkTextGo_flatten (cs : Nat) (hcs : 0 < cs) :
    ∀ fuel (text : List Char), text.length ≤ fuel →
      (chunkTextGo fuel text cs).flatten = text := by
  intro fuel
  induction fuel with
  | zero =>
    intro text h
    have : text = [] := List.eq_nil_of_length_eq_zero (by omega)
    subst this; rfl
  | succ fuel ih =>
    intro text h
    cases text with
    | nil => rfl
    | cons c rest =>
      simp only [chunkTextGo, List.flatten_cons]
      rw [ih]
      · exact List.take_append_drop _ _
      · rw [List.length_drop]
        simp only [List.length_cons] at h ⊢
        omega

theorem chunkText_flatten (cs : Nat) (hcs : 0 < cs) (text : List Char) :
    (chunkText text cs).flatten = text :=
  chunkTextGo_flatten cs hcs text.length text le_rfl

theorem chunkTextGo_mem_length (cs : Nat) :
    ∀ fuel (text : List Char) (c : List Char), c ∈ chunkTextGo fuel text cs →
      c.length ≤ cs := by
  intro fuel
  induction fuel with
  | zero =>
    intro text c h
    cases text <;> simp [chunkTextGo] at h
  | succ fuel ih =>
    intro text c h
    cases text with
    | nil => simp [chunkTextGo] at h
    | cons a rest =>
      simp only [chunkTextGo, List.mem_cons] at h
      rcases h with h | h
      · subst h
        exact (List.length_take _ _).le.trans (by simp)
      · exact ih _ _ h

theorem chunkText_mem_length (cs : Nat) (text : List Char) (c : List Char)
    (h : c ∈ chunkText text cs) : c.length ≤ cs :=
  chunkTextGo_mem_length cs text.length text c h

theorem mem_flatten_sub {c : List Char} {L : List (List Char)} (h : c ∈ L) :
    ∃ pre post, L.flatten = pre ++ c ++ post := by
  obtain ⟨A, B, rfl⟩ := List.append_of_mem h
  refine ⟨A.flatten, B.flatten, ?_⟩
  rw [List.flatten_append, List.flatten_cons]
  simp [List.append_assoc]

theorem chunkTextLoop_go (text : List Char) (N : Int) (hN : 0 < N) :
    ∀ fuel (i : Int) (acc : List (List Char)), 0 ≤ i →
      text.length - i.toNat < fuel →
      chunkTextLoop fuel text N i acc =
        some (acc ++ chunkText (text.drop i.toNat) N.toNat) := by
  intro fuel
  induction fuel with
  | zero => intro i acc _ h; omega
  | succ fuel ih =>
    intro i acc hi0 hfuel
    simp only [chunkTextLoop]
    by_cases hlt : i < (text.length : Int)
    · rw [if_pos hlt]
      have hilen : i.toNat < text.length := by omega
      have hiN : (0 : Int) ≤ i + N := by omega
      have hNnat : 0 < N.toNat := by omega
      have htoNat : (i + N).toNat = i.toNat + N.toNat := by omega
      have hfuel2 : text.length - (i + N).toNat < fuel := by omega
      rw [ih (i + N) _ hiN hfuel2]
      rw [substringJS_take_drop text i N hi0 (le_of_lt hN)]
      have hne : text.drop i.toNat ≠ [] := by
        apply List.length_pos.mp
        rw [List.length_drop]
        omega
      rw [chunkText_cons N.toNat hNnat (text.drop i.toNat) hne]
      rw [List.append_assoc]
      simp only [List.singleton_append]
      rw [List.drop_drop, htoNat, Nat.add_comm]
    · rw [if_neg hlt]
      have hd : text.drop i.toNat = [] := by
        rw [List.drop_eq_nil_iff]
        omega
      rw [hd, chunkText_nil, List.append_nil]

theorem chunkTextLoop_diverges (text : List Char) (N : Int) (hN : N ≤ 0)
    (hne : text ≠ []) :
    ∀ fuel (i : Int) (acc : List (List Char)), i ≤ 0 →
      chunkTextLoop fuel text N i acc = none := by
  intro fuel
  induction fuel with
  | zero => intro i acc _; rfl
  | succ fuel ih =>
    intro i acc hi
    have hlen : 0 < text.length := List.length_pos.mpr hne
    simp only [chunkTextLoop]
    rw [if_pos (show i < (text.length : Int) by omega)]
    exact ih _ _ (by omega)

/-! ### Claims about the text segmenter -/

/-- C2: for every text `T` and positive chunk size `N`, `chunkText`
returns contiguous, non-overlapping substrings of `T`, each of length at
most `N`, whose in-order concatenation reproduces `T` exactly; and the
structural `chunkText` is exactly what the source loop computes, given
enough fuel. -/
theorem chunkText_segmentation (T : List Char) (N : Nat) (h : 0 < N) :
    (chunkText T N).flatten = T ∧
    (∀ c ∈ chunkText T N, c.length ≤ N ∧ ∃ pre post, T = pre ++ c ++ post) ∧
    chunkTextLoop (T.length + 1) T (N : Int) 0 [] = some (chunkText T N) := by
  refine ⟨chunkText_flatten N h T, ?_, ?_⟩
  · intro c hc
    refine ⟨chunkText_mem_length N T c hc, ?_⟩
    obtain ⟨pre, post, hsub⟩ := mem_flatten_sub hc
    rw [chunkText_flatten N h T] at hsub
    exact ⟨pre, post, hsub⟩
  · have hgo := chunkTextLoop_go T (N : Int) (by exact_mod_cast h)
      (T.length + 1) 0 [] le_rfl (by omega)
    simpa using hgo

/-- Witness for C2 at the text "abcde" with chunk size 2. -/
theorem chunkText_segmentation_witness :
    (chunkText ['a','b','c','d','e'] 2).flatten = ['a','b','c','d','e'] ∧
    (∀ c ∈ chunkText ['a','b','c','d','e'] 2,
      c.length ≤ 2 ∧ ∃ pre post, ['a','b','c','d','e'] = pre ++ c ++ post) ∧
    chunkTextLoop 6 ['a','b','c','d','e'] 2 0 [] =
      some (chunkText ['a','b','c','d','e'] 2) :=
  chunkText_segmentation ['a','b','c','d','e'] 2 (by decide)

/-- C3 counterexample: with `maxChunkLength = -1 ≤ 0` and empty text the
`chunkText` loop terminates at once and returns a value (the empty chunk
list) — it does not fail. -/
theorem chunkTextLoop_nonpositive_returns :
    (-1 : Int) ≤ 0 ∧ chunkTextLoop 1 [] (-1) 0 [] = some [] :=
  ⟨by decide, by decide⟩

/-- C3 (amended): for every positive `maxChunkLength` the loop
terminates and returns the chunk sequence; for `maxChunkLength ≤ 0` it
never fails — on empty text it returns the empty sequence, and on
non-empty text it diverges (the loop index never advances past the text,
so no amount of fuel completes it). -/
theorem chunkText_termination_behavior (T : List Char) (N : Int) :
    (0 < N → chunkTextLoop (T.length + 1) T N 0 [] = some (chunkText T N.toNat)) ∧
    (N ≤ 0 → T = [] → chunkTextLoop 1 T N 0 [] = some []) ∧
    (N ≤ 0 → T ≠ [] → ∀ fuel, chunkTextLoop fuel T N 0 [] = none) := by
  refine ⟨?_, ?_, ?_⟩
  · intro hN
    have hgo := chunkTextLoop_go T N hN (T.length + 1) 0 [] le_rfl (by omega)
    simpa using hgo
  · intro _ hT
    subst hT
    rfl
  · intro hN hne fuel
    exact chunkTextLoop_diverges T N hN hne fuel 0 [] le_rfl

/-- Witness for the amended C3: termination at "abc" with size 2,
a value at the empty text with size -2, divergence at "a" with size 0. -/
theorem chunkText_termination_behavior_witness :
    chunkTextLoop 4 ['a','b','c'] 2 0 [] = some (chunkText ['a','b','c'] (2 : Int).toNat) ∧
    chunkTextLoop 1 [] (-2) 0 [] = some [] ∧
    chunkTextLoop 9 ['a'] 0 0 [] = none :=
  ⟨(chunkText_termination_behavior ['a','b','c'] 2).1 (by decide),
   (chunkText_termination_behavior [] (-2)).2.1 (by decide) rfl,
   (chunkText_termination_behavior ['a'] 0).2.2 (by decide) (by decide) 9⟩

/-! ### Lemmas about the sanitizer -/

theorem hasSub_length {t l : List Char} (h : hasSub t l) : t.length ≤ l.length := by
  obtain ⟨pre, post, rfl⟩ := h
  simp only [List.length_append]
  omega

theorem hasSub_cons {t l : List Char} (c : Char) (h : hasSub t l) : hasSub t (c :: l) := by
  obtain ⟨pre, post, rfl⟩ := h
  exact ⟨c :: pre, post, rfl⟩

theorem hasSub_cons_elim {t l : List Char} {c : Char} (h : hasSub t (c :: l)) :
    (∃ post, c :: l = t ++ post) ∨ hasSub t l := by
  obtain ⟨pre, post, heq⟩ := h
  cases pre with
  | nil => exact Or.inl ⟨post, by simpa using heq⟩
  | cons d pre' =>
    rw [List.cons_append, List.cons_append] at heq
    injection heq with h1 h2
    exact Or.inr ⟨pre', post, h2⟩

theorem mem_of_middle {c : Char} {m l : List Char}
    (h : ∃ pre post, l = pre ++ m ++ post) (hc : c ∈ m) : c ∈ l := by
  obtain ⟨pre, post, rfl⟩ := h
  simp [hc]

theorem chain'_of_middle {R : Char → Char → Prop} {m l : List Char}
    (h : ∃ pre post, l = pre ++ m ++ post) (hc : List.Chain' R l) :
    List.Chain' R m := by
  obtain ⟨pre, post, rfl⟩ := h
  exact (List.chain'_append.mp (List.chain'_append.mp hc).1).2.1

theorem hasSub_of_middle {t m l : List Char}
    (h : ∃ pre post, l = pre ++ m ++ post) (hs : hasSub t m) : hasSub t l := by
  obtain ⟨pre, post, rfl⟩ := h
  obtain ⟨a, b, rfl⟩ := hs
  exact ⟨pre ++ a, b ++ post, by simp [List.append_assoc]⟩

theorem head?_dropWhile (p : Char → Bool) :
    ∀ (l : List Char) (a : Char), (l.dropWhile p).head? = some a → p a = false := by
  intro l
  induction l with
  | nil => intro a h; simp [List.dropWhile] at h
  | cons c rest ih =>
    intro a h
    rw [List.dropWhile_cons] at h
    by_cases hc : p c
    · rw [if_pos hc] at h
      exact ih a h
    · rw [if_neg hc] at h
      simp only [List.head?_cons, Option.some.injEq] at h
      subst h
      simpa using hc

theorem dropWhile_eq_self_of_head (p : Char → Bool) (l : List Char)
    (h : ∀ a, l.head? = some a → p a = false) : l.dropWhile p = l := by
  cases l with
  | nil => rfl
  | cons c rest =>
    rw [List.dropWhile_cons, if_neg]
    simp [h c rfl]

theorem getLast?_dropWhile (p : Char → Bool) (m : List Char) {c : Char}
    (h : (m.dropWhile p).getLast? = some c) : m.getLast? = some c := by
  have hne : m.dropWhile p ≠ [] := by
    intro hn
    rw [hn] at h
    simp at h
  conv_lhs => rw [← List.takeWhile_append_dropWhile p m]
  rw [List.getLast?_append_of_ne_nil _ hne]
  exact h

theorem trimJS_middle (l : List Char) :
    ∃ pre post, l = pre ++ trimJS l ++ post := by
  refine ⟨l.takeWhile isJSWhitespace,
    ((l.dropWhile isJSWhitespace).reverse.takeWhile isJSWhitespace).reverse, ?_⟩
  have h3 : l.dropWhile isJSWhitespace = trimJS l ++
      ((l.dropWhile isJSWhitespace).reverse.takeWhile isJSWhitespace).reverse := by
    conv_lhs => rw [← List.reverse_reverse (l.dropWhile isJSWhitespace),
      ← List.takeWhile_append_dropWhile isJSWhitespace (l.dropWhile isJSWhitespace).reverse]
    rw [List.reverse_append]
    rfl
  conv_lhs => rw [← List.takeWhile_append_dropWhile isJSWhitespace l, h3]
  simp [List.append_assoc]

theorem trimJS_head {l : List Char} {c : Char} (h : (trimJS l).head? = some c) :
    isJSWhitespace c = false := by
  unfold trimJS at h
  rw [List.head?_reverse] at h
  have h2 := getLast?_dropWhile isJSWhitespace _ h
  rw [List.getLast?_reverse] at h2
  exact head?_dropWhile isJSWhitespace _ _ h2

theorem trimJS_getLast {l : List Char} {c : Char} (h : (trimJS l).getLast? = some c) :
    isJSWhitespace c = false := by
  unfold trimJS at h
  rw [List.getLast?_reverse] at h
  exact head?_dropWhile isJSWhitespace _ _ h

theorem trimJS_eq_self {l : List Char}
    (h1 : ∀ c, l.head? = some c → isJSWhitespace c = false)
    (h2 : ∀ c, l.getLast? = some c → isJSWhitespace c = false) :
    trimJS l = l := by
  unfold trimJS
  rw [dropWhile_eq_self_of_head isJSWhitespace l h1]
  rw [dropWhile_eq_self_of_head isJSWhitespace l.reverse
    (fun c hc => h2 c (by rwa [List.head?_reverse] at hc))]
  exact List.reverse_reverse l

theorem mem_collapseHWSAux {c : Char} : ∀ (l : List Char) (b : Bool),
    c ∈ collapseHWSAux b l → c ∈ l ∨ c = ' ' := by
  intro l
  induction l with
  | nil => intro b h; simp [collapseHWSAux] at h
  | cons a rest ih =>
    intro b h
    simp only [collapseHWSAux] at h
    by_cases ha : isHWS a
    · rw [if_pos ha] at h
      rcases List.mem_append.mp h with h | h
      · cases b with
        | false =>
          simp only [Bool.false_eq_true, if_false, List.mem_singleton] at h
          exact Or.inr h
        | true => simp at h
      · rcases ih true h with h | h
        · exact Or.inl (List.mem_cons_of_mem _ h)
        · exact Or.inr h
    · rw [if_neg ha] at h
      rcases List.mem_cons.mp h with h | h
      · exact Or.inl (h ▸ List.mem_cons_self _ _)
      · rcases ih false h with h | h
        · exact Or.inl (List.mem_cons_of_mem _ h)
        · exact Or.inr h

theorem head?_collapseHWSAux_true : ∀ (l : List Char) {c : Char},
    (collapseHWSAux true l).head? = some c → isHWS c = false := by
  intro l
  induction l with
  | nil => intro c h; simp [collapseHWSAux] at h
  | cons a rest ih =>
    intro c h
    simp only [collapseHWSAux] at h
    by_cases ha : isHWS a
    · rw [if_pos ha] at h
      simp only [if_true, List.nil_append] at h
      exact ih h
    · rw [if_neg ha] at h
      simp only [List.head?_cons, Option.some.injEq] at h
      subst h
      simpa using ha

theorem chain'_collapseHWSAux : ∀ (l : List Char) (b : Bool),
    List.Chain' noHWSPair (collapseHWSAux b l) := by
  intro l
  induction l with
  | nil => intro b; simp [collapseHWSAux]
  | cons a rest ih =>
    intro b
    simp only [collapseHWSAux]
    by_cases ha : isHWS a
    · rw [if_pos ha]
      cases b with
      | false =>
        simp only [Bool.false_eq_true, if_false, List.singleton_append]
        apply List.chain'_cons'.mpr
        refine ⟨?_, ih true⟩
        intro y hy
        exact Or.inr (head?_collapseHWSAux_true rest hy)
      | true =>
        simpa using ih true
    · rw [if_neg ha]
      apply List.chain'_cons'.mpr
      exact ⟨fun y _ => Or.inl (by simpa using ha), ih false⟩

theorem tab_not_mem_collapseHWSAux : ∀ (l : List Char) (b : Bool),
    '\t' ∉ collapseHWSAux b l := by
  intro l
  induction l with
  | nil => intro b h; simp [collapseHWSAux] at h
  | cons a rest ih =>
    intro b h
    simp only [collapseHWSAux] at h
    by_cases ha : isHWS a
    · rw [if_pos ha] at h
      rcases List.mem_append.mp h with h | h
      · cases b with
        | false => simp at h
        | true => simp at h
      · exact ih true h
    · rw [if_neg ha] at h
      rcases List.mem_cons.mp h with h | h
      · apply ha
        rw [← h]
        simp [isHWS]
      · exact ih false h

theorem collapseHWSAux_eq_self : ∀ (l : List Char),
    '\t' ∉ l → List.Chain' noHWSPair l →
    (collapseHWSAux false l = l ∧
      ((∀ c, l.head? = some c → isHWS c = false) → collapseHWSAux true l = l)) := by
  intro l
  induction l with
  | nil => exact fun _ _ => ⟨rfl, fun _ => rfl⟩
  | cons a rest ih =>
    intro htab hch
    have hch' := List.chain'_cons'.mp hch
    have htab' : '\t' ∉ rest := fun h => htab (List.mem_cons_of_mem _ h)
    have IH := ih htab' hch'.2
    by_cases ha : isHWS a
    · have hat : a ≠ '\t' := fun h => htab (h ▸ List.mem_cons_self _ _)
      have haeq : a = ' ' := by
        rcases (by simpa [isHWS] using ha : a = ' ' ∨ a = '\t') with h | h
        · exact h
        · exact absurd h hat
      constructor
      · simp only [collapseHWSAux, if_pos ha, Bool.false_eq_true, if_false,
          List.singleton_append]
        have hrest : ∀ c, rest.head? = some c → isHWS c = false := by
          intro c hc
          rcases hch'.1 c hc with h | h
          · rw [ha] at h
            exact absurd h (by simp)
          · exact h
        rw [IH.2 hrest, haeq]
      · intro hhead
        exact absurd (hhead a rfl) (by simp [ha])
    · constructor
      · simp only [collapseHWSAux, if_neg ha]
        rw [IH.1]
      · intro _
        simp only [collapseHWSAux, if_neg ha]
        rw [IH.1]

theorem not_hasSub_triple_cons {M : List Char} {c : Char} (hc : c ≠ '\n')
    (hM : ¬ hasSub tripleNL M) : ¬ hasSub tripleNL (c :: M) := by
  intro h
  rcases hasSub_cons_elim h with ⟨post, heq⟩ | h2
  · rw [show tripleNL ++ post = '\n' :: '\n' :: '\n' :: post from rfl] at heq
    injection heq with h1 _
    exact hc h1
  · exact hM h2

theorem not_hasSub_triple_pad {M : List Char} {c : Char} (hc : c ≠ '\n')
    (hM : ¬ hasSub tripleNL M) :
    ∀ j, j ≤ 2 → ¬ hasSub tripleNL (List.replicate j '\n' ++ c :: M) := by
  have h0 : ¬ hasSub tripleNL (c :: M) := not_hasSub_triple_cons hc hM
  have h1 : ¬ hasSub tripleNL ('\n' :: c :: M) := by
    intro h
    rcases hasSub_cons_elim h with ⟨post, heq⟩ | h2
    · rw [show tripleNL ++ post = '\n' :: '\n' :: '\n' :: post from rfl] at heq
      injection heq with _ heq2
      injection heq2 with hcc _
      exact hc hcc
    · exact h0 h2
  have h2 : ¬ hasSub tripleNL ('\n' :: '\n' :: c :: M) := by
    intro h
    rcases hasSub_cons_elim h with ⟨post, heq⟩ | hh
    · rw [show tripleNL ++ post = '\n' :: '\n' :: '\n' :: post from rfl] at heq
      injection heq with _ heq2
      injection heq2 with _ heq3
      injection heq3 with hcc _
      exact hc hcc
    · exact h1 hh
  intro j hj
  interval_cases j
  · simpa using h0
  · simpa [List.replicate] using h1
  · simpa [List.replicate] using h2

theorem mem_collapseNLAux {c : Char} : ∀ (l : List Char) (n : Nat),
    c ∈ collapseNLAux n l → c ∈ l := by
  intro l
  induction l with
  | nil => intro n h; simp [collapseNLAux] at h
  | cons a rest ih =>
    intro n h
    simp only [collapseNLAux] at h
    by_cases ha : a == '\n'
    · rw [if_pos ha] at h
      have ha' : a = '\n' := by simpa using ha
      by_cases hn : n < 2
      · rw [if_pos hn] at h
        simp only [List.singleton_append, List.mem_cons] at h
        rcases h with h | h
        · subst h
          rw [ha']
          exact List.mem_cons_self _ _
        · exact List.mem_cons_of_mem _ (ih _ h)
      · rw [if_neg hn] at h
        simp only [List.nil_append] at h
        exact List.mem_cons_of_mem _ (ih _ h)
    · rw [if_neg ha] at h
      rcases List.mem_cons.mp h with h | h
      · exact h ▸ List.mem_cons_self _ _
      · exact List.mem_cons_of_mem _ (ih _ h)

theorem head?_collapseNLAux_zero (l : List Char) :
    (collapseNLAux 0 l).head? = l.head? := by
  cases l with
  | nil => rfl
  | cons a rest =>
    simp only [collapseNLAux]
    by_cases ha : a == '\n'
    · rw [if_pos ha, if_pos (by omega : (0:Nat) < 2)]
      simp only [List.singleton_append, List.head?_cons]
      have ha' : a = '\n' := by simpa using ha
      rw [ha']
    · rw [if_neg ha]
      rfl

theorem chain'_collapseNLAux : ∀ (l : List Char) (n : Nat),
    List.Chain' noHWSPair l → List.Chain' noHWSPair (collapseNLAux n l) := by
  intro l
  induction l with
  | nil => intro n _; simp [collapseNLAux]
  | cons a rest ih =>
    intro n hch
    have hch' := List.chain'_cons'.mp hch
    simp only [collapseNLAux]
    by_cases ha : a == '\n'
    · rw [if_pos ha]
      by_cases hn : n < 2
      · rw [if_pos hn]
        simp only [List.singleton_append]
        apply List.chain'_cons'.mpr
        refine ⟨?_, ih _ hch'.2⟩
        intro y _
        exact Or.inl (by simp [isHWS])
      · rw [if_neg hn]
        simp only [List.nil_append]
        exact ih _ hch'.2
    · rw [if_neg ha]
      apply List.chain'_cons'.mpr
      refine ⟨?_, ih _ hch'.2⟩
      intro y hy
      rw [head?_collapseNLAux_zero] at hy
      exact hch'.1 y hy

theorem noTriple_collapseNLAux : ∀ (l : List Char) (n : Nat),
    ¬ hasSub tripleNL (List.replicate (min n 2) '\n' ++ collapseNLAux n l) := by
  intro l
  induction l with
  | nil =>
    intro n h
    have hlen := hasSub_length h
    simp only [collapseNLAux, List.append_nil, List.length_replicate, tripleNL,
      List.length_cons, List.length_nil] at hlen
    omega
  | cons a rest ih =>
    intro n
    simp only [collapseNLAux]
    by_cases ha : a == '\n'
    · rw [if_pos ha]
      by_cases hn : n < 2
      · rw [if_pos hn]
        have hmin1 : min n 2 = n := by omega
        have hmin2 : min (n + 1) 2 = n + 1 := by omega
        intro h
        apply ih (n + 1)
        rw [hmin2, List.replicate_succ']
        rw [hmin1] at h
        simpa [List.append_assoc, List.singleton_append] using h
      · rw [if_neg hn]
        have hmin : min n 2 = 2 := by omega
        have hmin2 : min (n + 1) 2 = 2 := by omega
        intro h
        apply ih (n + 1)
        rw [hmin2]
        rw [hmin] at h
        simpa using h
    · rw [if_neg ha]
      have hane : a ≠ '\n' := by simpa using ha
      have hM : ¬ hasSub tripleNL (collapseNLAux 0 rest) := by
        have h0 := ih 0
        simpa using h0
      exact not_hasSub_triple_pad hane hM (min n 2) (by omega)

theorem collapseNLAux_eq_self : ∀ (l : List Char) (n : Nat),
    ¬ hasSub tripleNL (List.replicate (min n 2) '\n' ++ l) → collapseNLAux n l = l := by
  intro l
  induction l with
  | nil => intro n _; rfl
  | cons a rest ih =>
    intro n h
    simp only [collapseNLAux]
    by_cases ha : a == '\n'
    · have ha' : a = '\n' := by simpa using ha
      subst ha'
      rw [if_pos (by simp)]
      by_cases hn : n < 2
      · rw [if_pos hn]
        have hmin1 : min n 2 = n := by omega
        have hmin2 : min (n + 1) 2 = n + 1 := by omega
        rw [List.singleton_append]
        congr 1
        apply ih (n + 1)
        rw [hmin2, List.replicate_succ']
        rw [hmin1] at h
        intro hs
        apply h
        simpa [List.append_assoc, List.singleton_append] using hs
      · exfalso
        apply h
        have hmin : min n 2 = 2 := by omega
        rw [hmin]
        exact ⟨[], rest, by simp [tripleNL, List.replicate]⟩
    · rw [if_neg ha]
      have hane : a ≠ '\n' := by simpa using ha
      congr 1
      apply ih 0
      simp only [Nat.zero_min, List.replicate_zero, List.nil_append]
      intro hs
      apply h
      apply hasSub_of_middle ?_ hs
      exact ⟨List.replicate (min n 2) '\n' ++ [a], [], by simp [List.append_assoc]⟩

theorem mem_collapseHWS {c : Char} {l : List Char} (h : c ∈ collapseHWS l) :
    c ∈ l ∨ c = ' ' :=
  mem_collapseHWSAux l false h

theorem chain'_collapseHWS (l : List Char) :
    List.Chain' noHWSPair (collapseHWS l) :=
  chain'_collapseHWSAux l false

theorem tab_not_mem_collapseHWS (l : List Char) : '\t' ∉ collapseHWS l :=
  tab_not_mem_collapseHWSAux l false

theorem collapseHWS_eq_self {l : List Char} (htab : '\t' ∉ l)
    (hch : List.Chain' noHWSPair l) : collapseHWS l = l :=
  (collapseHWSAux_eq_self l htab hch).1

theorem mem_collapseNL {c : Char} {l : List Char} (h : c ∈ collapseNL l) : c ∈ l :=
  mem_collapseNLAux l 0 h

theorem chain'_collapseNL (l : List Char) (h : List.Chain' noHWSPair l) :
    List.Chain' noHWSPair (collapseNL l) :=
  chain'_collapseNLAux l 0 h

theorem noTriple_collapseNL (l : List Char) : ¬ hasSub tripleNL (collapseNL l) := by
  have h := noTriple_collapseNLAux l 0
  simpa [collapseNL] using h

theorem collapseNL_eq_self {l : List Char} (h : ¬ hasSub tripleNL l) :
    collapseNL l = l := by
  apply collapseNLAux_eq_self l 0
  simpa using h

theorem replaceDisallowed_eq_self (keep : Char → Bool) :
    ∀ (l : List Char), (∀ c ∈ l, keep c = true) → replaceDisallowed keep l = l := by
  intro l
  induction l with
  | nil => intro _; rfl
  | cons c rest ih =>
    intro h
    simp only [replaceDisallowed, List.map_cons]
    rw [if_pos (h c (List.mem_cons_self _ _))]
    congr 1
    exact ih (fun d hd => h d (List.mem_cons_of_mem _ hd))

theorem mem_sanitize_keep (keep : Char → Bool) (hsp : keep ' ' = true)
    (hnl : keep '\n' = true) (x : List Char) :
    ∀ c ∈ sanitizeText keep x, keep c = true := by
  intro c hc
  have hc2 : c ∈ collapseNL (collapseHWS (replaceDisallowed keep x)) :=
    mem_of_middle (trimJS_middle _) hc
  have hc3 : c ∈ collapseHWS (replaceDisallowed keep x) := mem_collapseNL hc2
  rcases mem_collapseHWS hc3 with h | h
  · rcases List.mem_map.mp h with ⟨d, _, hd⟩
    by_cases hk : keep d
    · rw [if_pos hk] at hd
      rw [← hd]
      exact hk
    · rw [if_neg hk] at hd
      rw [← hd]
      exact hsp
  · rw [h]
    exact hsp

/-! ### Claims about the sanitizer -/

/-- C4 counterexample: `sanitizeText` does not delete disallowed
characters — on "a〈NUL〉b" it yields "a b" where the deletion reading of
the claim would yield "ab". -/
theorem sanitizeText_not_deletion :
    sanitizeText keepDemo ['a', Char.ofNat 0, 'b'] = ['a', ' ', 'b'] ∧
    sanitizeDeleting keepDemo ['a', Char.ofNat 0, 'b'] = ['a', 'b'] ∧
    sanitizeText keepDemo ['a', Char.ofNat 0, 'b'] ≠
      sanitizeDeleting keepDemo ['a', Char.ofNat 0, 'b'] := by
  refine ⟨by decide, by decide, by decide⟩

/-- C4 (amended): `sanitizeText` replaces every character outside the
kept class with a space rather than deleting it; consequently every
character of the output is in the kept class (the space and the newline
that normalization introduces are themselves kept), but two kept
characters separated only by disallowed characters end up separated by a
single space — as in the concrete evaluation on "a〈NUL〉b" — instead of
becoming adjacent. -/
theorem sanitizeText_allowed_chars (keep : Char → Bool) (hsp : keep ' ' = true)
    (hnl : keep '\n' = true) (text : List Char) :
    (∀ c ∈ sanitizeText keep text, keep c = true) ∧
    sanitizeText keepDemo ['a', Char.ofNat 0, 'b'] = ['a', ' ', 'b'] :=
  ⟨mem_sanitize_keep keep hsp hnl text, by decide⟩

/-- Witness for the amended C4 at the concrete class `keepDemo` and the
text "x〈NUL〉 y". -/
theorem sanitizeText_allowed_chars_witness :
    (∀ c ∈ sanitizeText keepDemo ['x', Char.ofNat 0, ' ', 'y'], keepDemo c = true) ∧
    sanitizeText keepDemo ['a', Char.ofNat 0, 'b'] = ['a', ' ', 'b'] :=
  sanitizeText_allowed_chars keepDemo (by decide) (by decide) ['x', Char.ofNat 0, ' ', 'y']

/-- C5: `sanitizeText` is idempotent, for any kept class that keeps the
space and the newline (as the class `[\p{L}\p{N}\p{P}\p{Zs}\n\r\t]` of
the source does). -/
theorem sanitizeText_idempotent (keep : Char → Bool) (hsp : keep ' ' = true)
    (hnl : keep '\n' = true) (x : List Char) :
    sanitizeText keep (sanitizeText keep x) = sanitizeText keep x := by
  have hmem : ∀ c ∈ sanitizeText keep x, keep c = true :=
    mem_sanitize_keep keep hsp hnl x
  have hmid := trimJS_middle (collapseNL (collapseHWS (replaceDisallowed keep x)))
  have htab : '\t' ∉ sanitizeText keep x := by
    intro h
    have h2 : '\t' ∈ collapseNL (collapseHWS (replaceDisallowed keep x)) :=
      mem_of_middle hmid h
    exact tab_not_mem_collapseHWS _ (mem_collapseNL h2)
  have hch : List.Chain' noHWSPair (sanitizeText keep x) :=
    chain'_of_middle hmid (chain'_collapseNL _ (chain'_collapseHWS _))
  have htriple : ¬ hasSub tripleNL (sanitizeText keep x) := by
    intro h
    exact noTriple_collapseNL _ (hasSub_of_middle hmid h)
  have hhead : ∀ c, (sanitizeText keep x).head? = some c → isJSWhitespace c = false :=
    fun c hc => trimJS_head hc
  have hlast : ∀ c, (sanitizeText keep x).getLast? = some c → isJSWhitespace c = false :=
    fun c hc => trimJS_getLast hc
  have e1 : replaceDisallowed keep (sanitizeText keep x) = sanitizeText keep x :=
    replaceDisallowed_eq_self keep _ hmem
  have e2 : collapseHWS (sanitizeText keep x) = sanitizeText keep x :=
    collapseHWS_eq_self htab hch
  have e3 : collapseNL (sanitizeText keep x) = sanitizeText keep x :=
    collapseNL_eq_self htriple
  have e4 : trimJS (sanitizeText keep x) = sanitizeText keep x :=
    trimJS_eq_self hhead hlast
  show trimJS (collapseNL (collapseHWS (replaceDisallowed keep (sanitizeText keep x)))) = _
  rw [e1, e2, e3, e4]

/-- Witness for C5 at the concrete class `keepDemo` and the text
"a〈NUL〉〈tab〉b〈newline〉". -/
theorem sanitizeText_idempotent_witness :
    sanitizeText keepDemo
        (sanitizeText keepDemo ['a', Char.ofNat 0, '\t', 'b', '\n']) =
      sanitizeText keepDemo ['a', Char.ofNat 0, '\t', 'b', '\n'] :=
  sanitizeText_idempotent keepDemo (by decide) (by decide) ['a', Char.ofNat 0, '\t', 'b', '\n']

/-! ### Lemmas about the retrieval sort -/

theorem insertDesc_perm (x : String × ℚ) :
    ∀ l, List.Perm (insertDesc x l) (x :: l) := by
  intro l
  induction l with
  | nil => exact List.Perm.refl _
  | cons y ys ih =>
    simp only [insertDesc]
    by_cases h : y.2 ≤ x.2
    · rw [if_pos h]
    · rw [if_neg h]
      exact (List.Perm.cons y ih).trans (List.Perm.swap x y ys)

theorem sortDesc_perm : ∀ l, List.Perm (sortDesc l) l := by
  intro l
  induction l with
  | nil => exact List.Perm.refl _
  | cons x xs ih =>
    exact (insertDesc_perm x (sortDesc xs)).trans (List.Perm.cons x ih)

theorem head?_insertDesc (x : String × ℚ) :
    ∀ (l : List (String × ℚ)) {z}, (insertDesc x l).head? = some z →
      z = x ∨ l.head? = some z := by
  intro l
  induction l with
  | nil =>
    intro z h
    simp only [insertDesc, List.head?_cons, Option.some.injEq] at h
    exact Or.inl h.symm
  | cons y ys _ =>
    intro z h
    simp only [insertDesc] at h
    by_cases hc : y.2 ≤ x.2
    · rw [if_pos hc] at h
      simp only [List.head?_cons, Option.some.injEq] at h
      exact Or.inl h.symm
    · rw [if_neg hc] at h
      simp only [List.head?_cons, Option.some.injEq] at h
      exact Or.inr (by rw [List.head?_cons, h])

theorem chain'_insertDesc (x : String × ℚ) :
    ∀ l, List.Chain' (fun a b : String × ℚ => b.2 ≤ a.2) l →
      List.Chain' (fun a b : String × ℚ => b.2 ≤ a.2) (insertDesc x l) := by
  intro l
  induction l with
  | nil => intro _; simp [insertDesc]
  | cons y ys ih =>
    intro hch
    have hch' := List.chain'_cons'.mp hch
    simp only [insertDesc]
    by_cases hc : y.2 ≤ x.2
    · rw [if_pos hc]
      exact List.chain'_cons'.mpr ⟨fun z hz => by
        rw [List.head?_cons] at hz
        have hzy : y = z := Option.mem_some_iff.mp hz
        rw [← hzy]
        exact hc, hch⟩
    · rw [if_neg hc]
      apply List.chain'_cons'.mpr
      refine ⟨?_, ih hch'.2⟩
      intro z hz
      rcases head?_insertDesc x ys hz with h | h
      · rw [h]
        exact le_of_lt (not_le.mp hc)
      · exact hch'.1 z h

theorem chain'_sortDesc : ∀ l, List.Chain' (fun a b : String × ℚ => b.2 ≤ a.2) (sortDesc l) := by
  intro l
  induction l with
  | nil => simp [sortDesc]
  | cons x xs ih => exact chain'_insertDesc x (sortDesc xs) ih

theorem filter_insertDesc (x : String × ℚ) (s : ℚ) :
    ∀ l, (insertDesc x l).filter (fun p => decide (p.2 = s)) =
      if x.2 = s then x :: l.filter (fun p => decide (p.2 = s))
      else l.filter (fun p => decide (p.2 = s)) := by
  intro l
  induction l with
  | nil =>
    by_cases hx : x.2 = s
    · rw [if_pos hx]
      simp [insertDesc, List.filter, hx]
    · rw [if_neg hx]
      simp [insertDesc, List.filter, hx]
  | cons y ys ih =>
    simp only [insertDesc]
    by_cases hc : y.2 ≤ x.2
    · rw [if_pos hc]
      by_cases hx : x.2 = s
      · rw [if_pos hx]
        simp [List.filter_cons, hx]
      · rw [if_neg hx]
        simp [List.filter_cons, hx]
    · rw [if_neg hc]
      by_cases hx : x.2 = s
      · rw [if_pos hx]
        have hxy : x.2 < y.2 := not_le.mp hc
        have hyne : y.2 ≠ s := fun he => absurd (he.trans hx.symm) (ne_of_gt hxy)
        rw [List.filter_cons, List.filter_cons, ih, if_pos hx]
        simp [hyne]
      · rw [if_neg hx]
        rw [List.filter_cons, List.filter_cons, ih, if_neg hx]

theorem filter_sortDesc (s : ℚ) :
    ∀ l, (sortDesc l).filter (fun p => decide (p.2 = s)) =
      l.filter (fun p => decide (p.2 = s)) := by
  intro l
  induction l with
  | nil => rfl
  | cons x xs ih =>
    show (insertDesc x (sortDesc xs)).filter _ = _
    rw [filter_insertDesc x s (sortDesc xs)]
    by_cases hx : x.2 = s
    · rw [if_pos hx, ih, List.filter_cons, if_pos (by simpa using hx)]
    · rw [if_neg hx, ih, List.filter_cons, if_neg (by simpa using hx)]

/-! ### Claims about the retriever and the combined query -/

/-- C6: for a non-empty store and any query embedding and `topK`, the
retriever returns `min topK store.length` texts: those of the scored
chunks after a stable sort by non-increasing score — the sorted list is
a permutation of the scored store, is ordered by non-increasing score,
and equal-score entries keep their original store order (the filter at
every score value is unchanged by the sort). -/
theorem retrieve_topK_sorted_stable (score : List ℚ → List ℚ → ℚ)
    (store : List Chunk) (qe : List ℚ) (q : String) (history : List Turn)
    (topK : Nat) (hne : store ≠ []) (hK : 0 < topK) :
    retrieveRelevantChunksVector score (fun _ => some qe) store q history topK =
      some (((sortDesc (scoredOf score qe store)).take topK).map Prod.fst) ∧
    (((sortDesc (scoredOf score qe store)).take topK).map Prod.fst).length =
      min topK store.length ∧
    List.Chain' (fun a b : String × ℚ => b.2 ≤ a.2)
      ((sortDesc (scoredOf score qe store)).take topK) ∧
    List.Perm (sortDesc (scoredOf score qe store)) (scoredOf score qe store) ∧
    (∀ s : ℚ,
      (sortDesc (scoredOf score qe store)).filter (fun p => decide (p.2 = s)) =
        (scoredOf score qe store).filter (fun p => decide (p.2 = s))) := by
  have hlen : (store.length == 0) = false := by
    simp only [beq_eq_false_iff_ne, ne_eq, List.length_eq_zero]
    exact hne
  refine ⟨?_, ?_, (chain'_sortDesc _).take topK, sortDesc_perm _,
    fun s => filter_sortDesc s _⟩
  · simp [retrieveRelevantChunksVector, hlen]
  · rw [List.length_map, List.length_take,
      (sortDesc_perm (scoredOf score qe store)).length_eq]
    simp [scoredOf]

/-- Witness for C6 at a two-chunk store with distinct scores and
`topK = 1`. -/
theorem retrieve_topK_sorted_stable_witness :
    retrieveRelevantChunksVector (fun _ e => e.headD 0) (fun _ => some [])
        [⟨"A", [1]⟩, ⟨"B", [2]⟩] "q" [] 1 =
      some (((sortDesc (scoredOf (fun _ e => e.headD 0) []
        [⟨"A", [1]⟩, ⟨"B", [2]⟩])).take 1).map Prod.fst) ∧
    (((sortDesc (scoredOf (fun _ e => e.headD 0) []
        [⟨"A", [1]⟩, ⟨"B", [2]⟩])).take 1).map Prod.fst).length =
      min 1 ([⟨"A", [1]⟩, ⟨"B", [2]⟩] : List Chunk).length ∧
    List.Chain' (fun a b : String × ℚ => b.2 ≤ a.2)
      ((sortDesc (scoredOf (fun _ e => e.headD 0) []
        [⟨"A", [1]⟩, ⟨"B", [2]⟩])).take 1) ∧
    List.Perm
      (sortDesc (scoredOf (fun _ e => e.headD 0) [] [⟨"A", [1]⟩, ⟨"B", [2]⟩]))
      (scoredOf (fun _ e => e.headD 0) [] [⟨"A", [1]⟩, ⟨"B", [2]⟩]) ∧
    (∀ s : ℚ,
      (sortDesc (scoredOf (fun _ e => e.headD 0) []
        [⟨"A", [1]⟩, ⟨"B", [2]⟩])).filter (fun p => decide (p.2 = s)) =
        (scoredOf (fun _ e => e.headD 0) []
          [⟨"A", [1]⟩, ⟨"B", [2]⟩]).filter (fun p => decide (p.2 = s))) :=
  retrieve_topK_sorted_stable (fun _ e => e.headD 0) [⟨"A", [1]⟩, ⟨"B", [2]⟩]
    [] "q" [] 1 (by simp) (by decide)

/-- C1 (evaluation at the failing input): with a stored history holding
one turn whose text is "hello", the combined query for prompt "hi" is
just " \n hi" — the history text never appears in it, because line 84
reads `h?.parts?.text`, a `text` property of the `parts` array itself
(which is `undefined`), instead of the text of the array's element. -/
theorem combinedQuery_drops_history :
    combinedQuery [⟨Role.user, [⟨"hello"⟩]⟩] "hi" = " \n hi" ∧
    'e' ∉ (combinedQuery [⟨Role.user, [⟨"hello"⟩]⟩] "hi").toList ∧
    'e' ∈ "hello".toList :=
  ⟨by decide, by decide, by decide⟩

/-! ### Claims about the /chat handler and the load path -/

/-- C7: when the embedding call of a live request fails (with a
non-empty store, so it is actually made), or the generation call at the
actually-assembled context fails, the request is answered 500 with the
JSON error body and the session store is returned exactly as it was —
no user or model turn is recorded. -/
theorem chat_failure_no_partial_turn (score : List ℚ → List ℚ → ℚ)
    (embed : String → Option (List ℚ))
    (gen : String → String → List Turn → Option String)
    (store : List Chunk) (sessions : String → List Turn)
    (sessionId prompt : Option String)
    (hs : jsFalsy sessionId = false) (hp : jsFalsy prompt = false)
    (hfail :
      (store ≠ [] ∧
        embed (combinedQuery (sessions (sessionId.getD "")) (prompt.getD "")) = none) ∨
      gen (contextOf score embed store (prompt.getD "") (sessions (sessionId.getD "")))
        (prompt.getD "") (sessions (sessionId.getD "")) = none) :
    postChat score embed gen store sessions sessionId prompt =
      ((500, Body.error "An internal server error occurred."), sessions) := by
  unfold postChat
  rw [hs, hp]
  simp only [Bool.or_self, Bool.false_eq_true, if_false]
  rcases hret : retrieveRelevantChunksVector score embed store (prompt.getD "")
      (sessions (sessionId.getD "")) 3 with _ | chunks
  · simp only [hret]
  · have hctx : contextOf score embed store (prompt.getD "")
        (sessions (sessionId.getD "")) = String.intercalate "\n\n---\n\n" chunks := by
      unfold contextOf
      rw [hret]
      rfl
    rcases hfail with ⟨hne, hembed⟩ | hgen
    · exfalso
      have hlen : (store.length == 0) = false := by
        simp only [beq_eq_false_iff_ne, ne_eq, List.length_eq_zero]
        exact hne
      unfold retrieveRelevantChunksVector at hret
      rw [hlen] at hret
      simp only [Bool.false_eq_true, if_false, hembed] at hret
      exact Option.noConfusion hret
    · rw [hctx] at hgen
      simp only [hret, hgen]

/-- Witness for C7: a failing embedding collaborator with a one-chunk
store and valid fields yields the 500 answer and an untouched session
store. -/
theorem chat_failure_no_partial_turn_witness :
    postChat (fun _ _ => 0) (fun _ => none) (fun _ _ _ => some "ok")
        [⟨"T", [1]⟩] (fun _ => []) (some "s") (some "p") =
      ((500, Body.error "An internal server error occurred."), fun _ => []) :=
  chat_failure_no_partial_turn (fun _ _ => 0) (fun _ => none) (fun _ _ _ => some "ok")
    [⟨"T", [1]⟩] (fun _ => []) (some "s") (some "p") rfl rfl
    (Or.inl ⟨by simp, rfl⟩)

/-- C9: a request missing `sessionId` or `prompt` (absent or empty) is
answered 400 with exactly the body
`{error: "sessionId and prompt are required"}` and the session store
unchanged, whatever the collaborators are (none is invoked); a request
with both fields non-falsy is never answered 400. -/
theorem chat_400_iff_missing (score : List ℚ → List ℚ → ℚ)
    (embed : String → Option (List ℚ))
    (gen : String → String → List Turn → Option String)
    (store : List Chunk) (sessions : String → List Turn)
    (sessionId prompt : Option String) :
    ((jsFalsy sessionId || jsFalsy prompt) = true →
      postChat score embed gen store sessions sessionId prompt =
        ((400, Body.error "sessionId and prompt are required"), sessions)) ∧
    ((jsFalsy sessionId || jsFalsy prompt) = false →
      (postChat score embed gen store sessions sessionId prompt).1.1 ≠ 400) := by
  constructor
  · intro h
    unfold postChat
    rw [h]
    rfl
  · intro h
    unfold postChat
    rw [h]
    simp only [Bool.false_eq_true, if_false]
    split
    · simp
    · split
      · simp
      · simp

/-- Witness for C9: a request with an absent prompt gets the 400 body;
one with both fields present does not get status 400. -/
theorem chat_400_iff_missing_witness :
    (postChat (fun _ _ => 0) (fun _ => some []) (fun _ _ _ => some "ok") []
        (fun _ => []) (some "s") none =
      ((400, Body.error "sessionId and prompt are required"), fun _ => [])) ∧
    (postChat (fun _ _ => 0) (fun _ => some []) (fun _ _ _ => some "ok") []
        (fun _ => []) (some "s") (some "p")).1.1 ≠ 400 :=
  ⟨(chat_400_iff_missing (fun _ _ => 0) (fun _ => some []) (fun _ _ _ => some "ok")
      [] (fun _ => []) (some "s") none).1 (by decide),
   (chat_400_iff_missing (fun _ _ => 0) (fun _ => some []) (fun _ _ _ => some "ok")
      [] (fun _ => []) (some "s") (some "p")).2 (by decide)⟩

/-- C10: every request the handler answers with 200 appends exactly two
turns to that session's stored history — first a user turn holding the
submitted prompt, then a model turn holding the response text returned
in the body — with all previously stored turns preserved in front of
them, unchanged and in order. -/
theorem chat_success_appends_turns (score : List ℚ → List ℚ → ℚ)
    (embed : String → Option (List ℚ))
    (gen : String → String → List Turn → Option String)
    (store : List Chunk) (sessions : String → List Turn)
    (sessionId prompt : Option String)
    (h : (postChat score embed gen store sessions sessionId prompt).1.1 = 200) :
    ∃ ft, (postChat score embed gen store sessions sessionId prompt).1.2 =
        Body.response ft ∧
      (postChat score embed gen store sessions sessionId prompt).2
          (sessionId.getD "") =
        sessions (sessionId.getD "") ++
          [⟨Role.user, [⟨prompt.getD ""⟩]⟩, ⟨Role.model, [⟨ft⟩]⟩] := by
  unfold postChat at h ⊢
  by_cases hf : (jsFalsy sessionId || jsFalsy prompt) = true
  · rw [hf] at h
    simp at h
  · have hf' : (jsFalsy sessionId || jsFalsy prompt) = false :=
      Bool.eq_false_iff.mpr hf
    rw [hf'] at h ⊢
    simp only [Bool.false_eq_true, if_false] at h ⊢
    rcases hret : retrieveRelevantChunksVector score embed store (prompt.getD "")
        (sessions (sessionId.getD "")) 3 with _ | chunks
    · rw [hret] at h
      simp at h
    · rw [hret] at h
      rcases hgen : gen (String.intercalate "\n\n---\n\n" chunks) (prompt.getD "")
          (sessions (sessionId.getD "")) with _ | text
      · simp only [hgen] at h
        simp at h
      · simp only [hgen] at h ⊢
        refine ⟨if 0 < (trimJS text.toList).length then text else clarification,
          rfl, ?_⟩
        show sessionsSet sessions (sessionId.getD "") _ (sessionId.getD "") = _
        unfold sessionsSet
        rw [if_pos rfl]

/-- Witness for C10 at a successful concrete run (empty store, a
generation reply "ok"): the two appended turns. -/
theorem chat_success_appends_turns_witness :
    ∃ ft, (postChat (fun _ _ => 0) (fun _ => some []) (fun _ _ _ => some "ok") []
        (fun _ => []) (some "s") (some "p")).1.2 = Body.response ft ∧
      (postChat (fun _ _ => 0) (fun _ => some []) (fun _ _ _ => some "ok") []
          (fun _ => []) (some "s") (some "p")).2 "s" =
        ([] : List Turn) ++ [⟨Role.user, [⟨"p"⟩]⟩, ⟨Role.model, [⟨ft⟩]⟩] :=
  chat_success_appends_turns (fun _ _ => 0) (fun _ => some [])
    (fun _ _ _ => some "ok") [] (fun _ => []) (some "s") (some "p") (by decide)

/-- C8 counterexample: the parsed value `[{"foo": 1}]` is not a
well-formed store (its record has no text/embedding fields), yet the
load path accepts it and starts the server, because the code checks only
truthiness and `length === 0`. -/
theorem loadEmbeddings_accepts_malformed :
    wellFormedStore (.arr [.obj [("foo", .num 1)]]) = false ∧
    loadEmbeddings (.ok (.arr [.obj [("foo", .num 1)]])) =
      .started (.arr [.obj [("foo", .num 1)]]) ∧
    LoadOutcome.started (.arr [.obj [("foo", .num 1)]]) ≠ LoadOutcome.exit1 :=
  ⟨rfl, rfl, fun h => LoadOutcome.noConfusion h⟩

/-- C8 (amended): the load path exits non-zero exactly when the file
cannot be read or parsed, or the parsed value is falsy, or its `length`
property is the number 0 (in particular on an empty store), and it
accepts every well-formed non-empty store; but it does not reject every
malformed value — any truthy value whose `length` property is not 0
passes the check. -/
theorem loadEmbeddings_characterization (v : JSValue) (e : String) :
    loadEmbeddings (.error e) = .exit1 ∧
    (loadEmbeddings (.ok v) = .exit1 ↔
      (jsTruthy v = false ∨ lengthIsZero v = true)) ∧
    (∀ recs : List JSValue, recs.all wellFormedRecord = true → recs ≠ [] →
      loadEmbeddings (.ok (.arr recs)) = .started (.arr recs)) := by
  refine ⟨rfl, ?_, ?_⟩
  · unfold loadEmbeddings
    by_cases ht : jsTruthy v
    · by_cases hz : lengthIsZero v
      · simp [ht, hz]
      · simp [ht, hz]
    · simp [ht]
  · intro recs _ hne
    have hlen : recs.length ≠ 0 := fun h => hne (List.eq_nil_of_length_eq_zero h)
    unfold loadEmbeddings
    have ht : jsTruthy (.arr recs) = true := rfl
    have hz : lengthIsZero (.arr recs) = false := by
      simp only [lengthIsZero, lengthProp]
      simp [hlen]
    simp [ht, hz]

/-- Witness for the amended C8: an unreadable file exits, the empty
array exits, and a one-record well-formed store is accepted. -/
theorem loadEmbeddings_characterization_witness :
    loadEmbeddings (.error "boom") = .exit1 ∧
    (loadEmbeddings (.ok (.arr [])) = .exit1 ↔
      (jsTruthy (.arr []) = false ∨ lengthIsZero (.arr []) = true)) ∧
    loadEmbeddings
        (.ok (.arr [.obj [("text", .str "t"), ("embedding", .arr [.num 1])]])) =
      .started (.arr [.obj [("text", .str "t"), ("embedding", .arr [.num 1])]]) :=
  ⟨(loadEmbeddings_characterization (.arr []) "boom").1,
   (loadEmbeddings_characterization (.arr []) "boom").2.1,
   (loadEmbeddings_characterization .null "x").2.2
     [.obj [("text", .str "t"), ("embedding", .arr [.num 1])]] rfl
     (List.cons_ne_nil _ _)⟩
